import Mathlib

/-!
Verification of the chunking / embedding / vector-index pipeline of
`backend/scripts/create_vector_db.py`.

Python strings are modelled as `List Char` (`PyStr`); the relevant string
operations (`str.split()`, `str.strip()`, `" ".join`, concatenation, `len`)
are embedded below.  The sentence tokenizer (`nltk.sent_tokenize`), the
sentence-embedding model (`SentenceTransformer.encode`) and the FAISS index
are external libraries; they are modelled as parameters or by their
documented contracts, as noted at each definition.
-/

namespace ECFR

/-- A Python string, modelled as its list of characters. -/
abbrev PyStr := List Char

/-- Convert a Lean string literal to the `PyStr` model. -/
def pyS (s : String) : PyStr := s.data

/-- Python whitespace for `str.split()` / `str.strip()` (ASCII subset). -/
def pyIsSpace (c : Char) : Bool :=
  c = ' ' || c = '\t' || c = '\n' || c = '\r' || c = '\x0b' || c = '\x0c'

/-- Helper for `pyWords`: `acc` is the current (reversed) in-progress word. -/
def pyWordsAux : PyStr → PyStr → List PyStr
  | acc, [] => if acc = [] then [] else [acc.reverse]
  | acc, c :: rest =>
      if pyIsSpace c then
        if acc = [] then pyWordsAux [] rest
        else acc.reverse :: pyWordsAux [] rest
      else pyWordsAux (c :: acc) rest

/-- Python `s.split()`: split on runs of whitespace, dropping empty pieces. -/
def pyWords (s : PyStr) : List PyStr := pyWordsAux [] s

/-- Python `" ".join(ws)`. -/
def pyJoin : List PyStr → PyStr
  | [] => []
  | [w] => w
  | w :: x :: rest => w ++ ' ' :: pyJoin (x :: rest)

/-- `str.lstrip()` over the whitespace class. -/
def pyTrimLeft (s : PyStr) : PyStr := s.dropWhile pyIsSpace

/-- `str.rstrip()` over the whitespace class. -/
def pyTrimRight (s : PyStr) : PyStr := (s.reverse.dropWhile pyIsSpace).reverse

/-- Python `s.strip()`. -/
def pyTrim (s : PyStr) : PyStr := pyTrimRight (pyTrimLeft s)

/-- The last `k` elements of a list (Python `l[-k:]` for `0 < k ≤ len(l)`,
and `l[-0:] = l` which agrees when `l = []`). -/
def takeLast (l : List α) (k : Nat) : List α := l.drop (l.length - k)

/-- Concatenation of a list of lists (own definition for stable lemmas). -/
def cat : List (List α) → List α
  | [] => []
  | l :: ls => l ++ cat ls

/-- `" s1 s2 ... sk"`: each element preceded by one space.  This is the raw
(unstripped) form the chunker's running buffer takes. -/
def spaced : List PyStr → PyStr
  | [] => []
  | s :: rest => ' ' :: (s ++ spaced rest)

/-! ## Constants of `create_vector_db.py` -/

/-- `CHUNK_SIZE = 512` (maximum number of characters per chunk). -/
def CHUNK_SIZE : Nat := 512

/-- `CHUNK_OVERLAP = 128` (overlap budget between chunks). -/
def CHUNK_OVERLAP : Nat := 128

/-- `CHUNK_OVERLAP // 10 = 12`: the word count used for chunk overlap. -/
def OVERLAP_WORDS : Nat := CHUNK_OVERLAP / 10

/-- `OUTPUT_DIR` constant of the script. -/
def OUTPUT_DIR : String := "../data/vector_db"

/-- `MODEL_NAME` constant of the script. -/
def MODEL_NAME : String := "all-MiniLM-L6-v2"

/-! ## Chunks and the chunking loop (`extract_text_from_content`, inner part) -/

/-- The per-section metadata carried into each chunk. -/
structure SecMeta where
  title_num : PyStr
  title_name : PyStr
  part_num : PyStr
  section_num : PyStr
  section_title : PyStr
deriving DecidableEq, Repr

/-- A text chunk as appended to `text_chunks` in the script. -/
structure Chunk where
  title_num : PyStr
  title_name : PyStr
  part_num : PyStr
  section_num : PyStr
  section_title : PyStr
  text : PyStr
  source : PyStr
deriving DecidableEq, Repr

/-- The f-string `f"Title {title_num}, Part {part_num}, Section {section_num}"`. -/
def mkSource (m : SecMeta) : PyStr :=
  pyS "Title " ++ m.title_num ++ pyS ", Part " ++ m.part_num ++
    pyS ", Section " ++ m.section_num

/-- One appended chunk record (lines 130-138 / 149-157 of the script). -/
def mkChunk (m : SecMeta) (t : PyStr) : Chunk :=
  ⟨m.title_num, m.title_name, m.part_num, m.section_num, m.section_title,
    t, mkSource m⟩

/-- The sentence-accumulation loop of `extract_text_from_content`
(lines 125-157): greedily grow `cur`; when the next sentence would push
`len(cur) + len(s)` over `CHUNK_SIZE`, emit `cur.strip()` (if `cur` is a
nonempty string) and restart from the last `min(len(words), 12)` words of
`cur` followed by the triggering sentence; at the end emit the remaining
buffer if its strip is nonempty. -/
def chunkLoop (m : SecMeta) (cur : PyStr) : List PyStr → List Chunk
  | [] => if pyTrim cur = [] then [] else [mkChunk m (pyTrim cur)]
  | s :: rest =>
      if cur.length + s.length > CHUNK_SIZE then
        let emitted := if cur = [] then [] else [mkChunk m (pyTrim cur)]
        let ws := pyWords cur
        let ow := takeLast ws (min ws.length OVERLAP_WORDS)
        emitted ++ chunkLoop m (pyJoin ow ++ ' ' :: s) rest
      else
        chunkLoop m (cur ++ ' ' :: s) rest

/-- Chunking of one section's sentence list (the `sent_tokenize` output). -/
def chunkSection (m : SecMeta) (sentences : List PyStr) : List Chunk :=
  chunkLoop m [] sentences

/-! ## Well-formedness of tokenizer output

`nltk.sent_tokenize` returns nonempty sentences with no leading or trailing
whitespace; the hypotheses below capture exactly that. -/

/-- The first character (if any) is not whitespace. -/
def headOk (s : PyStr) : Prop := ∀ c, s.head? = some c → pyIsSpace c = false

/-- The last character (if any) is not whitespace. -/
def lastOk (s : PyStr) : Prop := ∀ c, s.getLast? = some c → pyIsSpace c = false

/-- A sentence as produced by the tokenizer: nonempty, whitespace-free edges. -/
def goodSent (s : PyStr) : Prop := s ≠ [] ∧ headOk s ∧ lastOk s

/-- A word (as produced by `pyWords`): no whitespace characters at all. -/
def noSpace (w : PyStr) : Prop := ∀ c ∈ w, pyIsSpace c = false

instance (s : PyStr) : Decidable (headOk s) := by unfold headOk; infer_instance

instance (s : PyStr) : Decidable (lastOk s) := by unfold lastOk; infer_instance

instance (s : PyStr) : Decidable (goodSent s) := by unfold goodSent; infer_instance

instance : IsTrans (Int × ℚ) (fun p q => p.2 ≤ q.2) :=
  ⟨fun _ _ _ h1 h2 => le_trans h1 h2⟩

/-! ## Specification-side descriptions of the chunk stream

These definitions restate, in closed form, what the loop of
`extract_text_from_content` produces; the theorems below prove the loop
equal to them. -/

/-- The overlap words the chunker carries out of a chunk with text `t`:
`words[-min(len(words), CHUNK_OVERLAP // 10):]` for `words = t.split()`
(line 142 of the script). -/
def owOf (t : PyStr) : List PyStr :=
  takeLast (pyWords t) (min (pyWords t).length OVERLAP_WORDS)

/-- Texts of the chunks of a section after the first one: each consists of
the joined overlap words of the previous chunk followed by its own batch of
sentences, each sentence preceded by one space. -/
def renderFrom (prev : PyStr) : List (List PyStr) → List PyStr
  | [] => []
  | b :: bs =>
      (pyJoin (owOf prev) ++ spaced b) ::
        renderFrom (pyJoin (owOf prev) ++ spaced b) bs

/-- Texts of all chunks of one section, given the partition of the section's
sentences into consecutive batches. -/
def renderBatches : List (List PyStr) → List PyStr
  | [] => []
  | b :: bs => pyJoin b :: renderFrom (pyJoin b) bs

/-- Remove from a later chunk `t` the overlap text duplicated from the
previous chunk `prev` (the joined carried-over words); the separator space
in front of the first new sentence remains. -/
def stripOverlap (prev t : PyStr) : PyStr := t.drop (pyJoin (owOf prev)).length

/-- Concatenate the chunk texts after the first one, each with its
duplicated overlap removed. -/
def reconstructRest (prev : PyStr) : List PyStr → PyStr
  | [] => []
  | t :: ts => stripOverlap prev t ++ reconstructRest t ts

/-- Concatenate a section's chunk texts, removing each later chunk's
duplicated overlap (claim C7's reconstruction). -/
def reconstruct : List PyStr → PyStr
  | [] => []
  | t :: ts => t ++ reconstructRest t ts

/-- Claim C3's relation between consecutive chunk texts of one section:
the later chunk starts with exactly the last `min(w, CHUNK_OVERLAP // 10)`
words of the earlier chunk (joined by single spaces), followed by a space
and a sentence of the section, followed by the rest of the chunk. -/
def overlapLinked (sents : List PyStr) (t t2 : PyStr) : Prop :=
  ∃ s rest, s ∈ sents ∧ t2 = pyJoin (owOf t) ++ ' ' :: (s ++ rest)

/-- Section metadata used by concrete witness inputs. -/
def wMeta1 : SecMeta := ⟨pyS "1", pyS "Test", pyS "1", pyS "1.1", pyS "Scope"⟩

/-- Counterexample input: 12 nine-character words (119 chars in total). -/
def cexA : PyStr := pyJoin (List.replicate 12 (List.replicate 9 'a'))

/-- Counterexample input: a single 505-character sentence. -/
def cexB : PyStr := List.replicate 505 'b'

/-- Counterexample sentence list; no sentence exceeds `CHUNK_SIZE`. -/
def cexSents : List PyStr := [cexA, cexB, ['c']]

/-! ## The full extraction over the corpus layout

`extract_text_from_content` iterates `results` (title number → title data),
each title's `parts` (part number → part data), reads each part's
`sections_file` from disk when the path is set and the file exists, and
chunks each section whose `content` is a nonempty string.  Dict iteration
order is insertion order, modelled by association lists; the file system is
a partial map from paths to parsed section lists. -/

/-- One JSON object of a sections file: `{section, title, content}` (read
with `.get(..., "")`, so missing keys are the empty string). -/
structure SectionRec where
  secNum : PyStr
  secTitle : PyStr
  content : PyStr
deriving DecidableEq, Repr

/-- Per-part record: the optional `sections_file` path (`none` models both a
missing key and a falsy value). -/
structure PartData where
  sections_file : Option String
deriving DecidableEq, Repr

/-- Per-title record: `name` and the `parts` mapping. -/
structure TitleData where
  name : PyStr
  parts : List (PyStr × PartData)
deriving DecidableEq, Repr

/-- The `content_data` argument: its `results` mapping. -/
structure ContentData where
  results : List (PyStr × TitleData)
deriving DecidableEq, Repr

/-- Chunks of one section record (lines 115-157): sentences come from the
external `sent_tokenize`, passed in as `tok`; an empty (falsy) `content`
yields nothing. -/
def sectionChunks (tok : PyStr → List PyStr) (title_num title_name part_num : PyStr)
    (sec : SectionRec) : List Chunk :=
  if sec.content = [] then []
  else
    chunkSection
      ⟨title_num, title_name, part_num, sec.secNum, sec.secTitle⟩
      (tok sec.content)

/-- Chunks of one part (lines 107-113): skip when `sections_file` is unset
or the file is absent (`fsys path = none`). -/
def partChunks (tok : PyStr → List PyStr)
    (fsys : String → Option (List SectionRec))
    (title_num title_name part_num : PyStr) (pd : PartData) : List Chunk :=
  match pd.sections_file with
  | none => []
  | some path =>
      match fsys path with
      | none => []
      | some sections =>
          cat (sections.map (sectionChunks tok title_num title_name part_num))

/-- `extract_text_from_content` (lines 90-160); `none` models a falsy
`content_data`, for which the function returns `[]`. -/
def extract_text_from_content (tok : PyStr → List PyStr)
    (fsys : String → Option (List SectionRec)) :
    Option ContentData → List Chunk
  | none => []
  | some cd =>
      cat (cd.results.map (fun tp =>
        cat (tp.2.parts.map (fun pp =>
          partChunks tok fsys tp.1 tp.2.name pp.1 pp.2))))

/-! ## Embeddings, the FAISS index, and the build pipeline -/

/-- `create_embeddings` (lines 162-180).  The external
`SentenceTransformer.encode` is modelled as an order-preserving map of a
per-text embedding function `embed`, per its contract (spec section 4.3:
"given an ordered sequence of chunk texts, return a matrix of embedding
vectors in the same order"); floating-point entries are modelled as `ℚ`.
Returns `none` (Python `None`) on an empty chunk list. -/
def create_embeddings (embed : PyStr → List ℚ) (text_chunks : List Chunk) :
    Option (List (List ℚ)) :=
  if text_chunks.isEmpty then none
  else some (text_chunks.map (fun c => embed c.text))

/-- `embeddings.shape[1]`: the column count of the (rectangular) matrix. -/
def shape1 : List (List ℚ) → Nat
  | [] => 0
  | r :: _ => r.length

/-- A FAISS `IndexFlatL2`, modelled by its dimension and its stored vectors
in insertion order (the library's documented contract: `add` appends the
rows of the given matrix in order). -/
structure IndexFlatL2 where
  d : Nat
  vectors : List (List ℚ)
deriving DecidableEq, Repr

/-- `index.add(embeddings)` on a fresh index. -/
def faiss_add (idx : IndexFlatL2) (rows : List (List ℚ)) : IndexFlatL2 :=
  { idx with vectors := idx.vectors ++ rows }

/-- `create_faiss_index` (lines 182-199): `None` in, `None` out; otherwise a
fresh `IndexFlatL2(d)` with all rows added. -/
def create_faiss_index : Option (List (List ℚ)) → Option IndexFlatL2
  | none => none
  | some e => some (faiss_add ⟨shape1 e, []⟩ e)

/-- The `files` sub-object of the run metadata (lines 271-278). -/
structure MetaFiles where
  text_chunks : String
  embeddings : String
  faiss_index : String
  latest_text_chunks : String
  latest_embeddings : String
  latest_faiss_index : String
deriving DecidableEq, Repr

/-- The run metadata record (lines 264-279). -/
structure Metadata where
  timestamp : String
  model_name : String
  chunk_size : Nat
  chunk_overlap : Nat
  num_chunks : Nat
  embedding_dim : Nat
  files : MetaFiles
deriving DecidableEq, Repr

/-- File-system effects of the build pipeline, in program order. -/
inductive FsEvent where
  | mkdir (path : String)
  | writeFile (path : String)
deriving DecidableEq, Repr

/-- Whether an event writes a file (as opposed to creating a directory). -/
def isWrite : FsEvent → Bool
  | .writeFile _ => true
  | .mkdir _ => false

/-- Everything a successful run persists: the pickled chunk list, the saved
embedding matrix, the serialized index, and the metadata JSON. -/
structure PersistedDb where
  text_chunks : List Chunk
  embeddings : List (List ℚ)
  index : IndexFlatL2
  metadata : Metadata
deriving DecidableEq, Repr

/-- `create_vector_database` (lines 201-292).  `content` stands for
`load_data()["content"]`; `ts` for the run timestamp string.  Returns the
persisted artifacts (or `none` when nothing was built) paired with the list
of file-system effects, in program order.  The early `return`s at lines
215-217, 222-224 and 229-231 happen before any artifact write. -/
def create_vector_database (embed : PyStr → List ℚ)
    (tok : PyStr → List PyStr) (fsys : String → Option (List SectionRec))
    (content : Option ContentData) (ts : String) :
    Option PersistedDb × List FsEvent :=
  let ev0 := [FsEvent.mkdir OUTPUT_DIR]
  let text_chunks := extract_text_from_content tok fsys content
  if text_chunks.isEmpty then (none, ev0)
  else
    match create_embeddings embed text_chunks with
    | none => (none, ev0)
    | some embeddings =>
        match create_faiss_index (some embeddings) with
        | none => (none, ev0)
        | some index =>
            let chunks_file := OUTPUT_DIR ++ "/text_chunks_" ++ ts ++ ".pkl"
            let embeddings_file := OUTPUT_DIR ++ "/embeddings_" ++ ts ++ ".npy"
            let index_file := OUTPUT_DIR ++ "/faiss_index_" ++ ts ++ ".bin"
            let latest_chunks_file := OUTPUT_DIR ++ "/latest_text_chunks.pkl"
            let latest_embeddings_file := OUTPUT_DIR ++ "/latest_embeddings.npy"
            let latest_index_file := OUTPUT_DIR ++ "/latest_faiss_index.bin"
            let metadata_file :=
              OUTPUT_DIR ++ "/vector_db_metadata_" ++ ts ++ ".json"
            let latest_metadata_file := OUTPUT_DIR ++ "/latest_metadata.json"
            let md : Metadata :=
              ⟨ts, MODEL_NAME, CHUNK_SIZE, CHUNK_OVERLAP, text_chunks.length,
                shape1 embeddings,
                ⟨chunks_file, embeddings_file, index_file, latest_chunks_file,
                  latest_embeddings_file, latest_index_file⟩⟩
            (some ⟨text_chunks, embeddings, index, md⟩,
              ev0 ++
                [FsEvent.writeFile chunks_file,
                  FsEvent.writeFile embeddings_file,
                  FsEvent.writeFile index_file,
                  FsEvent.writeFile latest_chunks_file,
                  FsEvent.writeFile latest_embeddings_file,
                  FsEvent.writeFile latest_index_file,
                  FsEvent.writeFile metadata_file,
                  FsEvent.writeFile latest_metadata_file])

/-! ## Concrete witness inputs for the pipeline claims -/

def w2embed : PyStr → List ℚ := fun _ => [0]

def w2tok : PyStr → List PyStr := fun c => [c]

def w2fsys : String → Option (List SectionRec) := fun p =>
  if p = "secs2.json" then some [⟨pyS "2.1", pyS "Two", pyS "Hello world"⟩]
  else none

def w2cd : ContentData :=
  ⟨[(pyS "2", ⟨pyS "TwoTitle", [(pyS "5", ⟨some "secs2.json"⟩)]⟩)]⟩

def w2chunk : Chunk :=
  mkChunk ⟨pyS "2", pyS "TwoTitle", pyS "5", pyS "2.1", pyS "Two"⟩
    (pyS "Hello world")

def w2db : PersistedDb :=
  ⟨[w2chunk], [[0]], ⟨1, [[0]]⟩,
    ⟨"20250102_030405", MODEL_NAME, CHUNK_SIZE, CHUNK_OVERLAP, 1, 1,
      ⟨"../data/vector_db/text_chunks_20250102_030405.pkl",
        "../data/vector_db/embeddings_20250102_030405.npy",
        "../data/vector_db/faiss_index_20250102_030405.bin",
        "../data/vector_db/latest_text_chunks.pkl",
        "../data/vector_db/latest_embeddings.npy",
        "../data/vector_db/latest_faiss_index.bin"⟩⟩⟩

def w2evs : List FsEvent :=
  [FsEvent.mkdir "../data/vector_db",
    FsEvent.writeFile "../data/vector_db/text_chunks_20250102_030405.pkl",
    FsEvent.writeFile "../data/vector_db/embeddings_20250102_030405.npy",
    FsEvent.writeFile "../data/vector_db/faiss_index_20250102_030405.bin",
    FsEvent.writeFile "../data/vector_db/latest_text_chunks.pkl",
    FsEvent.writeFile "../data/vector_db/latest_embeddings.npy",
    FsEvent.writeFile "../data/vector_db/latest_faiss_index.bin",
    FsEvent.writeFile "../data/vector_db/vector_db_metadata_20250102_030405.json",
    FsEvent.writeFile "../data/vector_db/latest_metadata.json"]

def w9fsys : String → Option (List SectionRec) := fun p =>
  if p = "secs9.json" then some [⟨pyS "9.1", pyS "Nine", pyS "Hello there"⟩]
  else none

def w9cd : ContentData :=
  ⟨[(pyS "9", ⟨pyS "NineTitle", [(pyS "4", ⟨some "secs9.json"⟩)]⟩)]⟩

def w9chunk : Chunk :=
  mkChunk ⟨pyS "9", pyS "NineTitle", pyS "4", pyS "9.1", pyS "Nine"⟩
    (pyS "Hello there")

/-! ## The query service (`test_vector_search`, lines 294-341)

Distances are FAISS L2 distances, modelled as `ℚ`; the index's `search` is
an external exact nearest-neighbor routine and is passed in as a parameter
returning `(row index, distance)` pairs (the zipped `indices[0]` /
`distances[0]` arrays).  Python exceptions are modelled with `Except`. -/

/-- Exceptions the query path can raise. -/
inductive PyError where
  | fileNotFound (path : String)
  | indexError
deriving DecidableEq, Repr

/-- One entry of the returned result list (lines 330-339). -/
structure QueryRes where
  score : ℚ
  source : PyStr
  title_num : PyStr
  title_name : PyStr
  part_num : PyStr
  section_num : PyStr
  section_title : PyStr
  text : PyStr
deriving DecidableEq, Repr

/-- The similarity transform of line 331: `1.0 / (1.0 + distance)`. -/
def toScore (d : ℚ) : ℚ := 1 / (1 + d)

/-- One appended result record for chunk `c` at distance `d`. -/
def mkResult (c : Chunk) (d : ℚ) : QueryRes :=
  ⟨toScore d, c.source, c.title_num, c.title_name, c.part_num, c.section_num,
    c.section_title, c.text⟩

/-- Python list subscription `l[i]` with an `int` index: nonnegative indices
count from the front, negative ones from the back; `none` is an
`IndexError`. -/
def pyGetElem (l : List α) (i : Int) : Option α :=
  if 0 ≤ i then l[i.toNat]?
  else if (-i).toNat ≤ l.length then l[l.length - (-i).toNat]? else none

/-- The result-assembly loop of `test_vector_search` (lines 326-340): for
each returned row, skip it when `idx < len(text_chunks)` fails, otherwise
append the record built from `text_chunks[idx]`. -/
def buildResults (chunks : List Chunk) : List (Int × ℚ) → Except PyError (List QueryRes)
  | [] => .ok []
  | (idx, dist) :: rest =>
      if idx < (chunks.length : Int) then
        match pyGetElem chunks idx with
        | none => .error .indexError
        | some c =>
            match buildResults chunks rest with
            | .error e => .error e
            | .ok rs => .ok (mkResult c dist :: rs)
      else buildResults chunks rest

/-- Specification-side form of the loop for claim C4: keep exactly the rows
whose index passes the bound check, in order, each resolved positionally in
the chunk list. -/
def keptResults (chunks : List Chunk) (neighbors : List (Int × ℚ)) :
    List QueryRes :=
  neighbors.filterMap (fun p =>
    if p.1 < (chunks.length : Int) then
      (chunks[p.1.toNat]?).map (fun c => mkResult c p.2)
    else none)

/-- What the query service reads from disk: the optional
`latest_metadata.json`, the pickled chunk lists, and the serialized
indexes, each as a partial map from paths. -/
structure QueryFs where
  latest_metadata : Option Metadata
  pickle_files : String → Option (List Chunk)
  index_files : String → Option IndexFlatL2

/-- `test_vector_search` (lines 294-341): missing metadata is handled
gracefully (log + `return None`, modelled `.ok none`); the subsequent
`open`/`read_index` calls on the files named by the metadata are not
guarded and raise when the file is absent. -/
def test_vector_search (fs : QueryFs) (encode : String → List ℚ)
    (search : IndexFlatL2 → List ℚ → Nat → List (Int × ℚ))
    (query : String) (top_k : Nat) :
    Except PyError (Option (List QueryRes)) :=
  match fs.latest_metadata with
  | none => .ok none
  | some md =>
      match fs.pickle_files md.files.latest_text_chunks with
      | none => .error (.fileNotFound md.files.latest_text_chunks)
      | some text_chunks =>
          match fs.index_files md.files.latest_faiss_index with
          | none => .error (.fileNotFound md.files.latest_faiss_index)
          | some index =>
              match buildResults text_chunks
                  (search index (encode query) top_k) with
              | .error e => .error e
              | .ok rs => .ok (some rs)

/-- Witness chunk list for the query-side claims. -/
def wChunksQ : List Chunk := [w2chunk, w9chunk]

/-- Witness metadata for claim C10. -/
def wMd10 : Metadata :=
  ⟨"20250103_000000", MODEL_NAME, CHUNK_SIZE, CHUNK_OVERLAP, 2, 1,
    ⟨"tc.pkl", "emb.npy", "idx.bin", "latest_tc.pkl", "latest_emb.npy",
      "latest_idx.bin"⟩⟩

/-- Witness file system with no metadata at all. -/
def wFs10a : QueryFs := ⟨none, fun _ => none, fun _ => none⟩

/-- Witness file system with metadata but no chunk file. -/
def wFs10b : QueryFs := ⟨some wMd10, fun _ => none, fun _ => none⟩

/-- Witness file system with metadata and chunks but no index file. -/
def wFs10c : QueryFs :=
  ⟨some wMd10,
    fun p => if p = "latest_tc.pkl" then some wChunksQ else none,
    fun _ => none⟩

/-! ## Basic lemmas about the string operations -/

theorem spaced_append (a b : List PyStr) :
    spaced (a ++ b) = spaced a ++ spaced b := by
  induction a with
  | nil => simp [spaced]
  | cons s rest ih => simp [spaced, ih]

theorem pyJoin_cons (s : PyStr) (l : List PyStr) :
    pyJoin (s :: l) = s ++ spaced l := by
  induction l generalizing s with
  | nil => simp [pyJoin, spaced]
  | cons x rest ih => simp [pyJoin, spaced, ih x]

theorem pyJoin_append_spaced (a b : List PyStr) (ha : a ≠ []) :
    pyJoin (a ++ b) = pyJoin a ++ spaced b := by
  cases a with
  | nil => exact absurd rfl ha
  | cons s rest => simp [pyJoin_cons, spaced_append, List.append_assoc]

theorem spaced_cons_eq (s : PyStr) (l : List PyStr) :
    spaced (s :: l) = ' ' :: pyJoin (s :: l) := by
  simp [spaced, pyJoin_cons]

theorem pyWords_space_cons (c : Char) (s : PyStr) (h : pyIsSpace c = true) :
    pyWords (c :: s) = pyWords s := by
  simp [pyWords, pyWordsAux, h]

theorem pyWordsAux_ne_nil (acc s : PyStr) (h : acc ≠ []) :
    pyWordsAux acc s ≠ [] := by
  induction s generalizing acc with
  | nil => simp [pyWordsAux, h]
  | cons c rest ih =>
      by_cases hc : pyIsSpace c
      · simp [pyWordsAux, hc, h]
      · simpa [pyWordsAux, hc] using ih (c :: acc) (by simp)

theorem pyWords_cons_ne_nil (c : Char) (s : PyStr) (h : pyIsSpace c = false) :
    pyWords (c :: s) ≠ [] := by
  simpa [pyWords, pyWordsAux, h] using pyWordsAux_ne_nil [c] s (by simp)

theorem pyWordsAux_good (acc s : PyStr) (hacc : noSpace acc) :
    ∀ w ∈ pyWordsAux acc s, w ≠ [] ∧ noSpace w := by
  induction s generalizing acc with
  | nil =>
      intro w hw
      by_cases h : acc = []
      · simp [pyWordsAux, h] at hw
      · simp [pyWordsAux, h] at hw
        subst hw
        refine ⟨by simpa using h, ?_⟩
        intro c hc
        exact hacc c (by simpa using hc)
  | cons c rest ih =>
      intro w hw
      cases hc : pyIsSpace c with
      | true =>
          by_cases h : acc = []
          · simp [pyWordsAux, hc, h] at hw
            exact ih [] (by intro x hx; simp at hx) w hw
          · simp [pyWordsAux, hc, h] at hw
            rcases hw with hw | hw
            · subst hw
              refine ⟨by simpa using h, ?_⟩
              intro x hx
              exact hacc x (by simpa using hx)
            · exact ih [] (by intro x hx; simp at hx) w hw
      | false =>
          simp only [pyWordsAux, hc, Bool.false_eq_true, if_false] at hw
          refine ih (c :: acc) ?_ w hw
          intro x hx
          rcases List.mem_cons.mp hx with hx | hx
          · subst hx; exact hc
          · exact hacc x hx

theorem pyWords_good (s : PyStr) : ∀ w ∈ pyWords s, w ≠ [] ∧ noSpace w :=
  pyWordsAux_good [] s (by intro x hx; simp at hx)

theorem pyTrimLeft_space_cons (c : Char) (s : PyStr) (h : pyIsSpace c = true) :
    pyTrimLeft (c :: s) = pyTrimLeft s := by
  simp [pyTrimLeft, List.dropWhile_cons, h]

theorem pyTrimLeft_eq_self (s : PyStr) (h : headOk s) : pyTrimLeft s = s := by
  cases s with
  | nil => rfl
  | cons c rest =>
      have hc : pyIsSpace c = false := h c rfl
      simp [pyTrimLeft, List.dropWhile_cons, hc]

theorem pyTrimRight_eq_self (s : PyStr) (h : lastOk s) : pyTrimRight s = s := by
  unfold pyTrimRight
  cases hr : s.reverse with
  | nil =>
      have : s = [] := by simpa using congrArg List.reverse hr
      simp [this]
  | cons c rest =>
      have hlast : s.getLast? = some c := by
        rw [← List.head?_reverse, hr]; rfl
      have hc : pyIsSpace c = false := h c hlast
      rw [List.dropWhile_cons, hc]
      simp [← hr]

theorem pyTrim_eq_self (s : PyStr) (h1 : headOk s) (h2 : lastOk s) :
    pyTrim s = s := by
  rw [pyTrim, pyTrimLeft_eq_self s h1, pyTrimRight_eq_self s h2]

theorem pyTrimRight_length_le (s : PyStr) : (pyTrimRight s).length ≤ s.length := by
  unfold pyTrimRight
  calc (s.reverse.dropWhile pyIsSpace).reverse.length
      = (s.reverse.dropWhile pyIsSpace).length := by simp
    _ ≤ s.reverse.length := (List.dropWhile_sublist _).length_le
    _ = s.length := by simp

theorem pyTrim_length_le (s : PyStr) : (pyTrim s).length ≤ s.length := by
  calc (pyTrim s).length ≤ (pyTrimLeft s).length := pyTrimRight_length_le _
    _ ≤ s.length := (List.dropWhile_sublist _).length_le

theorem lastOk_cons (c : Char) (x : PyStr) (hx : x ≠ []) (h : lastOk x) :
    lastOk (c :: x) := by
  intro d hd
  cases x with
  | nil => exact absurd rfl hx
  | cons b y =>
      rw [List.getLast?_cons_cons] at hd
      exact h d hd

theorem lastOk_append (s t : PyStr) (ht : t ≠ []) (h : lastOk t) :
    lastOk (s ++ t) := by
  induction s with
  | nil => simpa using h
  | cons c rest ih =>
      have hne : rest ++ t ≠ [] := by
        simp [ht]
      simpa using lastOk_cons c (rest ++ t) hne ih

theorem spaced_ne_nil (s : PyStr) (l : List PyStr) : spaced (s :: l) ≠ [] := by
  simp [spaced]

theorem lastOk_spaced (l : List PyStr) (h : ∀ x ∈ l, goodSent x) :
    lastOk (spaced l) := by
  induction l with
  | nil => intro c hc; simp [spaced] at hc
  | cons s rest ih =>
      have hs := h s (by simp)
      have hrest : ∀ x ∈ rest, goodSent x := fun x hx => h x (by simp [hx])
      rw [spaced]
      refine lastOk_cons ' ' (s ++ spaced rest) (by simp [hs.1]) ?_
      cases rest with
      | nil => simpa [spaced] using hs.2.2
      | cons y ys =>
          exact lastOk_append s (spaced (y :: ys)) (spaced_ne_nil y ys)
            (ih hrest)

theorem lastOk_pyJoin (l : List PyStr) (h : ∀ x ∈ l, goodSent x) :
    lastOk (pyJoin l) := by
  cases l with
  | nil => intro c hc; simp [pyJoin] at hc
  | cons s rest =>
      rw [pyJoin_cons]
      have hs := h s (by simp)
      cases rest with
      | nil => simpa [spaced] using hs.2.2
      | cons y ys =>
          exact lastOk_append s (spaced (y :: ys)) (spaced_ne_nil y ys)
            (lastOk_spaced (y :: ys) (fun x hx => h x (by simp [hx])))

theorem headOk_append (s t : PyStr) (hs : s ≠ []) (h : headOk s) :
    headOk (s ++ t) := by
  cases s with
  | nil => exact absurd rfl hs
  | cons c rest =>
      intro d hd
      simp at hd
      subst hd
      exact h c rfl

/-- Stripping the chunker's buffer `" s1 s2 ... sk"` yields `"s1 s2 ... sk"`. -/
theorem pyTrim_spaced (l : List PyStr) (hne : l ≠ []) (h : ∀ x ∈ l, goodSent x) :
    pyTrim (spaced l) = pyJoin l := by
  cases l with
  | nil => exact absurd rfl hne
  | cons s rest =>
      have hs := h s (by simp)
      rw [spaced, pyTrim, pyTrimLeft_space_cons ' ' _ (by decide),
        pyTrimLeft_eq_self _ (headOk_append s (spaced rest) hs.1 hs.2.1),
        ← pyJoin_cons, pyTrimRight_eq_self _ (lastOk_pyJoin (s :: rest) h)]

theorem takeLast_length (l : List α) (k : Nat) :
    (takeLast l k).length = min k l.length := by
  simp [takeLast]
  omega

theorem mem_takeLast (l : List α) (k : Nat) (a : α) (h : a ∈ takeLast l k) :
    a ∈ l := List.drop_subset _ l h

theorem mem_cat (ls : List (List α)) (a : α) :
    a ∈ cat ls ↔ ∃ l ∈ ls, a ∈ l := by
  induction ls with
  | nil => simp [cat]
  | cons l rest ih => simp [cat, ih]

/-! ## Lemmas about overlap words and the buffer shapes -/

theorem owOf_ne_nil (t : PyStr) (h : pyWords t ≠ []) : owOf t ≠ [] := by
  intro hnil
  have hlen := takeLast_length (pyWords t) (min (pyWords t).length OVERLAP_WORDS)
  rw [show takeLast (pyWords t) (min (pyWords t).length OVERLAP_WORDS) = owOf t
      from rfl, hnil] at hlen
  have hl : (pyWords t).length ≠ 0 := fun h0 => h (List.length_eq_zero.mp h0)
  have hov : OVERLAP_WORDS = 12 := rfl
  simp at hlen
  omega

theorem owOf_good (t : PyStr) : ∀ w ∈ owOf t, w ≠ [] ∧ noSpace w :=
  fun w hw => pyWords_good t w (mem_takeLast _ _ _ hw)

theorem headOk_of_noSpace (w : PyStr) (h : noSpace w) : headOk w := by
  cases w with
  | nil => intro c hc; simp at hc
  | cons c rest => intro d hd; simp at hd; subst hd; exact h c (by simp)

theorem headOk_words_join (ow : List PyStr) (how : ow ≠ [])
    (hg : ∀ w ∈ ow, w ≠ [] ∧ noSpace w) (x : PyStr) :
    headOk (pyJoin ow ++ x) := by
  cases ow with
  | nil => exact absurd rfl how
  | cons w ows =>
      have hw := hg w (by simp)
      rw [pyJoin_cons, List.append_assoc]
      exact headOk_append w _ hw.1 (headOk_of_noSpace w hw.2)

theorem pyWords_words_join_ne_nil (ow : List PyStr) (how : ow ≠ [])
    (hg : ∀ w ∈ ow, w ≠ [] ∧ noSpace w) (x : PyStr) :
    pyWords (pyJoin ow ++ x) ≠ [] := by
  cases ow with
  | nil => exact absurd rfl how
  | cons w ows =>
      have hw := hg w (by simp)
      cases w with
      | nil => exact absurd rfl hw.1
      | cons c w' =>
          rw [pyJoin_cons,
            show ((c :: w') ++ spaced ows) ++ x = c :: ((w' ++ spaced ows) ++ x)
              from by simp]
          exact pyWords_cons_ne_nil c _ (hw.2 c (by simp))

theorem pyJoin_sents_ne_nil (l : List PyStr) (hne : l ≠ [])
    (h : ∀ s ∈ l, goodSent s) : pyJoin l ≠ [] := by
  cases l with
  | nil => exact absurd rfl hne
  | cons p r =>
      rw [pyJoin_cons]
      intro hnil
      exact (h p (by simp)).1 (List.append_eq_nil.mp hnil).1

theorem pyWords_pyJoin_sents_ne_nil (l : List PyStr) (hne : l ≠ [])
    (h : ∀ s ∈ l, goodSent s) : pyWords (pyJoin l) ≠ [] := by
  cases l with
  | nil => exact absurd rfl hne
  | cons p r =>
      have hp := h p (by simp)
      cases p with
      | nil => exact absurd rfl hp.1
      | cons c p' =>
          rw [pyJoin_cons,
            show (c :: p') ++ spaced r = c :: (p' ++ spaced r) from by simp]
          exact pyWords_cons_ne_nil c _ (hp.2.1 c rfl)

theorem pyWords_spaced_eq (l : List PyStr) (hne : l ≠ []) :
    pyWords (spaced l) = pyWords (pyJoin l) := by
  cases l with
  | nil => exact absurd rfl hne
  | cons s rest =>
      rw [spaced_cons_eq]
      exact pyWords_space_cons ' ' _ (by decide)

theorem lastOk_seed (ow : List PyStr) (pending : List PyStr)
    (hp : pending ≠ []) (hpg : ∀ s ∈ pending, goodSent s) :
    lastOk (pyJoin ow ++ spaced pending) := by
  cases pending with
  | nil => exact absurd rfl hp
  | cons p r =>
      exact lastOk_append _ _ (spaced_ne_nil p r) (lastOk_spaced _ hpg)

theorem pyTrim_seed (ow : List PyStr) (pending : List PyStr)
    (how : ow ≠ []) (hg : ∀ w ∈ ow, w ≠ [] ∧ noSpace w)
    (hp : pending ≠ []) (hpg : ∀ s ∈ pending, goodSent s) :
    pyTrim (pyJoin ow ++ spaced pending) = pyJoin ow ++ spaced pending :=
  pyTrim_eq_self _ (headOk_words_join ow how hg _) (lastOk_seed ow pending hp hpg)

theorem seed_ne_nil (ow : List PyStr) (pending : List PyStr)
    (hp : pending ≠ []) : pyJoin ow ++ spaced pending ≠ [] := by
  cases pending with
  | nil => exact absurd rfl hp
  | cons p r =>
      intro hnil
      exact spaced_ne_nil p r (List.append_eq_nil.mp hnil).2

/-! ## The batch characterization of the chunking loop -/

/-- Continuation state of the loop: the buffer is an overlap seed
`join(overlap words of prevT) ++ spaced pending`.  The chunks that come out
are exactly `renderFrom prevT` applied to `pending` extended by some prefix
`e` of the remaining sentences, followed by further nonempty batches `bs`
that partition the rest. -/
theorem chunkLoop_renderFrom (m : SecMeta) :
    ∀ (rest pending : List PyStr) (prevT : PyStr),
      pending ≠ [] →
      (∀ s ∈ pending, goodSent s) →
      (∀ s ∈ rest, goodSent s) →
      pyWords prevT ≠ [] →
      ∃ e bs,
        e ++ cat bs = rest ∧
        (∀ b ∈ bs, b ≠ []) ∧
        (chunkLoop m (pyJoin (owOf prevT) ++ spaced pending) rest).map
            (fun c => c.text)
          = renderFrom prevT ((pending ++ e) :: bs) := by
  intro rest
  induction rest with
  | nil =>
      intro pending prevT hp hpg _ hw
      refine ⟨[], [], by simp [cat], by simp, ?_⟩
      have hone := owOf_ne_nil prevT hw
      have hgood := owOf_good prevT
      have htrim := pyTrim_seed (owOf prevT) pending hone hgood hp hpg
      have hne2 := seed_ne_nil (owOf prevT) pending hp
      rw [chunkLoop, htrim, if_neg hne2]
      simp [renderFrom, mkChunk]
  | cons s rest' ih =>
      intro pending prevT hp hpg hrg hw
      have hs : goodSent s := hrg s (by simp)
      have hrg' : ∀ x ∈ rest', goodSent x := fun x hx => hrg x (by simp [hx])
      have hone := owOf_ne_nil prevT hw
      have hgood := owOf_good prevT
      have hcne := seed_ne_nil (owOf prevT) pending hp
      have htrim := pyTrim_seed (owOf prevT) pending hone hgood hp hpg
      by_cases hlen :
          (pyJoin (owOf prevT) ++ spaced pending).length + s.length > CHUNK_SIZE
      · have hwcur : pyWords (pyJoin (owOf prevT) ++ spaced pending) ≠ [] :=
          pyWords_words_join_ne_nil (owOf prevT) hone hgood _
        obtain ⟨e', bs', hcat', hb', hmap'⟩ :=
          ih [s] (pyJoin (owOf prevT) ++ spaced pending) (by simp)
            (by intro x hx; simp at hx; subst hx; exact hs) hrg' hwcur
        refine ⟨[], (s :: e') :: bs', by simp [cat, hcat'], ?_, ?_⟩
        · intro b hb
          rcases List.mem_cons.mp hb with hb | hb
          · subst hb; simp
          · exact hb' b hb
        · rw [chunkLoop, if_pos hlen]
          have hseed :
              pyJoin (takeLast (pyWords (pyJoin (owOf prevT) ++ spaced pending))
                  (min (pyWords (pyJoin (owOf prevT) ++ spaced pending)).length
                    OVERLAP_WORDS)) ++ ' ' :: s
                = pyJoin (owOf (pyJoin (owOf prevT) ++ spaced pending)) ++
                    spaced [s] := by
            simp [owOf, spaced]
          rw [List.map_append, if_neg hcne, hseed, hmap']
          simp [renderFrom, htrim, mkChunk]
      · have hpg2 : ∀ x ∈ pending ++ [s], goodSent x := by
          intro x hx
          rcases List.mem_append.mp hx with hx | hx
          · exact hpg x hx
          · simp at hx; subst hx; exact hs
        obtain ⟨e', bs', hcat', hb', hmap'⟩ :=
          ih (pending ++ [s]) prevT (by simp) hpg2 hrg' hw
        refine ⟨s :: e', bs', by simp [hcat'], hb', ?_⟩
        rw [chunkLoop, if_neg hlen]
        have harr : (pyJoin (owOf prevT) ++ spaced pending) ++ ' ' :: s
            = pyJoin (owOf prevT) ++ spaced (pending ++ [s]) := by
          simp [spaced_append, spaced, List.append_assoc]
        rw [harr, hmap']
        simp [List.append_assoc]

/-- Initial state of the loop inside a section: the buffer is
`" s1 s2 ... sk"` (no overlap words yet).  The emitted chunks are the first
batch joined, followed by `renderFrom` of the remaining batches. -/
theorem chunkLoop_renderBatches (m : SecMeta) :
    ∀ (rest pending : List PyStr),
      pending ≠ [] →
      (∀ s ∈ pending, goodSent s) →
      (∀ s ∈ rest, goodSent s) →
      ∃ e bs,
        e ++ cat bs = rest ∧
        (∀ b ∈ bs, b ≠ []) ∧
        (chunkLoop m (spaced pending) rest).map (fun c => c.text)
          = renderBatches ((pending ++ e) :: bs) := by
  intro rest
  induction rest with
  | nil =>
      intro pending hp hpg _
      refine ⟨[], [], by simp [cat], by simp, ?_⟩
      have htrim := pyTrim_spaced pending hp hpg
      have hjne := pyJoin_sents_ne_nil pending hp hpg
      rw [chunkLoop, htrim, if_neg hjne]
      simp [renderBatches, renderFrom, mkChunk]
  | cons s rest' ih =>
      intro pending hp hpg hrg
      have hs : goodSent s := hrg s (by simp)
      have hrg' : ∀ x ∈ rest', goodSent x := fun x hx => hrg x (by simp [hx])
      by_cases hlen : (spaced pending).length + s.length > CHUNK_SIZE
      · have htrim := pyTrim_spaced pending hp hpg
        have hweq := pyWords_spaced_eq pending hp
        have hwne := pyWords_pyJoin_sents_ne_nil pending hp hpg
        obtain ⟨e', bs', hcat', hb', hmap'⟩ :=
          chunkLoop_renderFrom m rest' [s] (pyJoin pending) (by simp)
            (by intro x hx; simp at hx; subst hx; exact hs) hrg' hwne
        refine ⟨[], (s :: e') :: bs', by simp [cat, hcat'], ?_, ?_⟩
        · intro b hb
          rcases List.mem_cons.mp hb with hb | hb
          · subst hb; simp
          · exact hb' b hb
        · rw [chunkLoop, if_pos hlen]
          have hpne : spaced pending ≠ [] := by
            cases pending with
            | nil => exact absurd rfl hp
            | cons p r => exact spaced_ne_nil p r
          have hseed :
              pyJoin (takeLast (pyWords (spaced pending))
                  (min (pyWords (spaced pending)).length OVERLAP_WORDS)) ++
                  ' ' :: s
                = pyJoin (owOf (pyJoin pending)) ++ spaced [s] := by
            rw [hweq]
            simp [owOf, spaced]
          rw [List.map_append, if_neg hpne, hseed, hmap']
          simp [renderBatches, htrim, mkChunk]
      · have hpg2 : ∀ x ∈ pending ++ [s], goodSent x := by
          intro x hx
          rcases List.mem_append.mp hx with hx | hx
          · exact hpg x hx
          · simp at hx; subst hx; exact hs
        obtain ⟨e', bs', hcat', hb', hmap'⟩ :=
          ih (pending ++ [s]) (by simp) hpg2 hrg'
        refine ⟨s :: e', bs', by simp [hcat'], hb', ?_⟩
        rw [chunkLoop, if_neg hlen]
        have harr : spaced pending ++ ' ' :: s = spaced (pending ++ [s]) := by
          simp [spaced_append, spaced]
        rw [harr, hmap']
        simp [List.append_assoc]

/-- Master characterization: the chunk texts of one section are exactly the
rendering of a partition of its sentences into nonempty consecutive
batches. -/
theorem chunkSection_batches (m : SecMeta) (sents : List PyStr)
    (hg : ∀ s ∈ sents, goodSent s) :
    ∃ batches, cat batches = sents ∧ (∀ b ∈ batches, b ≠ []) ∧
      (chunkSection m sents).map (fun c => c.text) = renderBatches batches := by
  cases sents with
  | nil =>
      refine ⟨[], rfl, by simp, ?_⟩
      rw [chunkSection, chunkLoop]
      simp [pyTrim, pyTrimLeft, pyTrimRight, renderBatches]
  | cons s rest =>
      have hs := hg s (by simp)
      have hrg : ∀ x ∈ rest, goodSent x := fun x hx => hg x (by simp [hx])
      obtain ⟨e, bs, hcat, hb, hmap⟩ :=
        chunkLoop_renderBatches m rest [s] (by simp)
          (by intro x hx; simp at hx; subst hx; exact hs) hrg
      refine ⟨(s :: e) :: bs, by simp [cat, hcat], ?_, ?_⟩
      · intro b hb'
        rcases List.mem_cons.mp hb' with hb' | hb'
        · subst hb'; simp
        · exact hb b hb'
      · have hempty : spaced [s] = ([] : PyStr) ++ ' ' :: s := by simp [spaced]
        rw [chunkSection, chunkLoop]
        by_cases hlen : ([] : PyStr).length + s.length > CHUNK_SIZE
        · rw [if_pos hlen]
          have hseed :
              pyJoin (takeLast (pyWords ([] : PyStr))
                  (min (pyWords ([] : PyStr)).length OVERLAP_WORDS)) ++
                  ' ' :: s = spaced [s] := by
            simp [pyWords, pyWordsAux, takeLast, pyJoin, spaced]
          rw [if_pos rfl]
          dsimp only
          rw [hseed]
          simpa using hmap
        · rw [if_neg hlen, ← hempty]
          simpa using hmap

/-- Removing each later chunk's duplicated overlap and concatenating yields
the batches' sentences, space-separated. -/
theorem reconstructRest_renderFrom :
    ∀ (bs : List (List PyStr)) (prev : PyStr),
      reconstructRest prev (renderFrom prev bs) = spaced (cat bs) := by
  intro bs
  induction bs with
  | nil => intro prev; simp [renderFrom, reconstructRest, cat, spaced]
  | cons b bs' ih =>
      intro prev
      rw [renderFrom, reconstructRest, stripOverlap, List.drop_left, ih, cat,
        spaced_append]

/-! ## Claim C1: chunk length bound -/

/-- Loop invariant for the length bound: the running buffer is either at most
`CHUNK_SIZE + 1` characters (the `+ 1` is the separator space that the
`len(current_chunk) + len(sentence)` test does not count), or it is exactly an
overlap seed `" ".join(overlap_words) + " " + sentence` that was created
without any length check. -/
theorem chunkLoop_text_bound (m : SecMeta) (sents0 : List PyStr) :
    ∀ (rest : List PyStr) (cur : PyStr), rest ⊆ sents0 →
      (cur.length ≤ CHUNK_SIZE + 1 ∨
        ∃ ws s, s ∈ sents0 ∧ ws.length ≤ OVERLAP_WORDS ∧
          cur = pyJoin ws ++ ' ' :: s) →
      ∀ c ∈ chunkLoop m cur rest,
        c.text.length ≤ CHUNK_SIZE + 1 ∨
          ∃ ws s, s ∈ sents0 ∧ ws.length ≤ OVERLAP_WORDS ∧
            c.text = pyTrim (pyJoin ws ++ ' ' :: s) := by
  intro rest
  induction rest with
  | nil =>
      intro cur _ hinv c hc
      rw [chunkLoop] at hc
      by_cases ht : pyTrim cur = []
      · simp [ht] at hc
      · simp [ht] at hc
        subst hc
        rcases hinv with h | ⟨ws, s, hs, hws, hcur⟩
        · exact Or.inl (le_trans (pyTrim_length_le cur) h)
        · exact Or.inr ⟨ws, s, hs, hws, by rw [mkChunk, hcur]⟩
  | cons s rest ih =>
      intro cur hsub hinv c hc
      have hs0 : s ∈ sents0 := hsub (by simp)
      have hsub' : rest ⊆ sents0 := fun x hx => hsub (by simp [hx])
      rw [chunkLoop] at hc
      by_cases hlen : cur.length + s.length > CHUNK_SIZE
      · simp only [if_pos hlen] at hc
        rcases List.mem_append.mp hc with hc | hc
        · by_cases hcur : cur = []
          · simp [hcur] at hc
          · simp [hcur] at hc
            subst hc
            rcases hinv with h | ⟨ws, t, ht, hws, hcur'⟩
            · exact Or.inl (le_trans (pyTrim_length_le cur) h)
            · exact Or.inr ⟨ws, t, ht, hws, by rw [mkChunk, hcur']⟩
        · refine ih _ hsub' (Or.inr ⟨_, s, hs0, ?_, rfl⟩) c hc
          rw [takeLast_length]
          omega
      · simp only [if_neg hlen] at hc
        refine ih _ hsub' (Or.inl ?_) c hc
        simp only [List.length_append, List.length_cons]
        omega

/-- Claim C1 (amended): every chunk either has at most `CHUNK_SIZE + 1`
characters, or its text is the stripped overlap seed — the join of at most
`CHUNK_OVERLAP // 10` carried-over words, a space, and a single sentence of
the section.  (The claim's original bound `CHUNK_SIZE`, with an exception
only for chunks containing an over-long sentence, is refuted by
`claim_C1_counterexample`.) -/
theorem claim_C1 (m : SecMeta) (sents : List PyStr) :
    ∀ c ∈ chunkSection m sents,
      c.text.length ≤ CHUNK_SIZE + 1 ∨
        ∃ ws s, s ∈ sents ∧ ws.length ≤ OVERLAP_WORDS ∧
          c.text = pyTrim (pyJoin ws ++ ' ' :: s) :=
  chunkLoop_text_bound m sents sents []
    (fun _ hx => hx) (Or.inl (by simp [CHUNK_SIZE]))

theorem claim_C1_witness :
    (mkChunk wMeta1 (pyS "hi")).text.length ≤ CHUNK_SIZE + 1 ∨
      ∃ ws s, s ∈ [pyS "hi"] ∧ ws.length ≤ OVERLAP_WORDS ∧
        (mkChunk wMeta1 (pyS "hi")).text = pyTrim (pyJoin ws ++ ' ' :: s) :=
  claim_C1 wMeta1 [pyS "hi"] (mkChunk wMeta1 (pyS "hi")) (by decide)

set_option maxRecDepth 8000 in
/-- Claim C1 as stated is false: on `cexSents` every sentence has at most
`CHUNK_SIZE` characters (so no chunk contains an over-long sentence), yet a
chunk longer than `CHUNK_SIZE` is emitted. -/
theorem claim_C1_counterexample :
    (∀ s ∈ cexSents, s.length ≤ CHUNK_SIZE) ∧
      ∃ c ∈ chunkSection wMeta1 cexSents, CHUNK_SIZE < c.text.length := by
  constructor
  · decide
  · decide

/-! ## Claims C3 and C7: overlap and coverage -/

theorem chain_renderFrom (sents : List PyStr) :
    ∀ (bs : List (List PyStr)) (prev : PyStr),
      (∀ b ∈ bs, ∃ s b2, b = s :: b2 ∧ s ∈ sents) →
      List.Chain' (overlapLinked sents) (prev :: renderFrom prev bs) := by
  intro bs
  induction bs with
  | nil => intro prev _; simp [renderFrom]
  | cons b bs2 ih =>
      intro prev hb
      obtain ⟨s, b2, rfl, hs⟩ := hb b (by simp)
      rw [renderFrom, List.chain'_cons]
      constructor
      · exact ⟨s, spaced b2, hs, by simp [spaced]⟩
      · exact ih _ (fun x hx => hb x (by simp [hx]))

/-- Claim C3: for every pair of consecutive chunks of one section, the later
chunk's text starts with exactly the last `min(w, CHUNK_OVERLAP // 10)`
words of the earlier chunk (joined by single spaces, `w` its word count),
followed by a space, the sentence that triggered the split, and the rest of
the later chunk.  Hypothesis: the sentences are tokenizer output (nonempty,
no whitespace at either end). -/
theorem claim_C3 (m : SecMeta) (sents : List PyStr)
    (hg : ∀ s ∈ sents, goodSent s) :
    List.Chain' (overlapLinked sents)
      ((chunkSection m sents).map (fun c => c.text)) := by
  obtain ⟨batches, hcat, hne, hmap⟩ := chunkSection_batches m sents hg
  rw [hmap]
  cases batches with
  | nil => simp [renderBatches]
  | cons b bs =>
      rw [renderBatches]
      refine chain_renderFrom sents bs (pyJoin b) ?_
      intro b2 hb2
      have hbne := hne b2 (by simp [hb2])
      cases b2 with
      | nil => exact absurd rfl hbne
      | cons s bt =>
          refine ⟨s, bt, rfl, ?_⟩
          have hmem : s ∈ cat (b :: bs) :=
            (mem_cat _ _).mpr ⟨s :: bt, by simp [hb2], by simp⟩
          rwa [hcat] at hmem

def wMeta3 : SecMeta := ⟨pyS "3", pyS "Three", pyS "7", pyS "3.1", pyS "Terms"⟩

def w3sents : List PyStr := [List.replicate 300 'a', List.replicate 300 'b']

set_option maxRecDepth 8000 in
theorem claim_C3_witness :
    List.Chain' (overlapLinked w3sents)
      ((chunkSection wMeta3 w3sents).map (fun c => c.text)) :=
  claim_C3 wMeta3 w3sents (by decide)

/-- Claim C7: concatenating one section's chunks in emission order, with
each later chunk's duplicated overlap text removed, reconstructs exactly the
section's sentences in their original order, joined by single spaces — so
every sentence appears exactly once, none lost, truncated, or duplicated
outside the overlap.  Hypothesis: the sentences are tokenizer output. -/
theorem claim_C7 (m : SecMeta) (sents : List PyStr)
    (hg : ∀ s ∈ sents, goodSent s) :
    reconstruct ((chunkSection m sents).map (fun c => c.text))
      = pyJoin sents := by
  obtain ⟨batches, hcat, hne, hmap⟩ := chunkSection_batches m sents hg
  rw [hmap]
  cases batches with
  | nil => rw [← hcat]; rfl
  | cons b bs =>
      rw [renderBatches, reconstruct, reconstructRest_renderFrom, ← hcat, cat,
        pyJoin_append_spaced b (cat bs) (hne b (by simp))]

def wMeta7 : SecMeta := ⟨pyS "7", pyS "Seven", pyS "2", pyS "7.1", pyS "Uses"⟩

def w7sents : List PyStr := [List.replicate 280 'x', List.replicate 280 'y']

set_option maxRecDepth 8000 in
theorem claim_C7_witness :
    reconstruct ((chunkSection wMeta7 w7sents).map (fun c => c.text))
      = pyJoin w7sents :=
  claim_C7 wMeta7 w7sents (by decide)

/-! ## Claim C2: positional alignment after a successful build -/

/-- Claim C2: after every successful build, the embedding matrix is exactly
the per-chunk embedding of the persisted chunk texts in order (row `i`
embeds chunk `i`), the index holds exactly those vectors in the same order,
`num_chunks` equals the chunk-list length, and `embedding_dim` equals the
matrix's column count (`D`, the embedder's fixed output dimension). -/
theorem claim_C2 (embed : PyStr → List ℚ) (D : Nat)
    (tok : PyStr → List PyStr) (fsys : String → Option (List SectionRec))
    (content : Option ContentData) (ts : String)
    (db : PersistedDb) (evs : List FsEvent)
    (hdim : ∀ t, (embed t).length = D)
    (h : create_vector_database embed tok fsys content ts = (some db, evs)) :
    db.embeddings = db.text_chunks.map (fun c => embed c.text)
    ∧ db.index.vectors = db.embeddings
    ∧ db.metadata.num_chunks = db.text_chunks.length
    ∧ db.metadata.embedding_dim = D := by
  simp only [create_vector_database] at h
  by_cases he : (extract_text_from_content tok fsys content).isEmpty
  · rw [if_pos he] at h
    exact absurd (congrArg Prod.fst h) (by simp)
  · rw [if_neg he] at h
    simp only [create_embeddings, he, if_false, create_faiss_index,
      faiss_add] at h
    have hdb := congrArg Prod.fst h
    simp only at hdb
    have hdb2 := Option.some.inj hdb
    subst hdb2
    refine ⟨rfl, by simp, rfl, ?_⟩
    cases hc : extract_text_from_content tok fsys content with
    | nil => rw [hc] at he; simp at he
    | cons c rest => simp [hc, shape1, hdim]

theorem claim_C2_witness :
    w2db.embeddings = w2db.text_chunks.map (fun c => w2embed c.text)
    ∧ w2db.index.vectors = w2db.embeddings
    ∧ w2db.metadata.num_chunks = w2db.text_chunks.length
    ∧ w2db.metadata.embedding_dim = 1 :=
  claim_C2 w2embed 1 w2tok w2fsys (some w2cd) "20250102_030405" w2db w2evs
    (fun _ => rfl) (by decide)

/-! ## Claim C6: empty corpus builds nothing and writes nothing -/

/-- Claim C6: when the corpus yields zero text chunks the pipeline returns
`none` (no metadata — the recognizable "nothing built" result, without
raising) and performs no file writes at all — in particular no timestamped
and no "latest" artifact is touched (only the output-directory creation,
which happens before the check, occurs). -/
theorem claim_C6 (embed : PyStr → List ℚ) (tok : PyStr → List PyStr)
    (fsys : String → Option (List SectionRec)) (content : Option ContentData)
    (ts : String)
    (h : extract_text_from_content tok fsys content = []) :
    create_vector_database embed tok fsys content ts
        = (none, [FsEvent.mkdir OUTPUT_DIR])
    ∧ ((create_vector_database embed tok fsys content ts).2.filter isWrite)
        = [] := by
  have he : (extract_text_from_content tok fsys content).isEmpty := by
    simp [h]
  constructor
  · simp [create_vector_database, he]
  · simp [create_vector_database, he, isWrite]

theorem claim_C6_witness :
    create_vector_database w2embed w2tok (fun _ => none) none "20250101_000000"
        = (none, [FsEvent.mkdir OUTPUT_DIR])
    ∧ ((create_vector_database w2embed w2tok (fun _ => none) none
          "20250101_000000").2.filter isWrite) = [] :=
  claim_C6 w2embed w2tok (fun _ => none) none "20250101_000000" rfl

/-! ## Claim C9: source citation string and metadata provenance -/

theorem chunkLoop_meta (m : SecMeta) :
    ∀ (rest : List PyStr) (cur : PyStr) (c : Chunk),
      c ∈ chunkLoop m cur rest → ∃ t, c = mkChunk m t := by
  intro rest
  induction rest with
  | nil =>
      intro cur c hc
      rw [chunkLoop] at hc
      by_cases ht : pyTrim cur = []
      · simp [ht] at hc
      · simp [ht] at hc
        exact ⟨pyTrim cur, hc⟩
  | cons s rest' ih =>
      intro cur c hc
      rw [chunkLoop] at hc
      by_cases hlen : cur.length + s.length > CHUNK_SIZE
      · simp only [if_pos hlen] at hc
        rcases List.mem_append.mp hc with hc | hc
        · by_cases hcur : cur = []
          · simp [hcur] at hc
          · simp [hcur] at hc
            exact ⟨pyTrim cur, hc⟩
        · exact ih _ c hc
      · simp only [if_neg hlen] at hc
        exact ih _ c hc

/-- Claim C9: every chunk produced by `extract_text_from_content` comes from
exactly one section of one part of one title of the input; its five metadata
fields are that section's identifiers, and its `source` string is exactly
`"Title {T}, Part {P}, Section {S}"` formatted with those identifiers. -/
theorem claim_C9 (tok : PyStr → List PyStr)
    (fsys : String → Option (List SectionRec)) (cd : ContentData) (c : Chunk)
    (hc : c ∈ extract_text_from_content tok fsys (some cd)) :
    ∃ tEntry pEntry path sections srec,
      tEntry ∈ cd.results ∧ pEntry ∈ (tEntry : PyStr × TitleData).2.parts ∧
      (pEntry : PyStr × PartData).2.sections_file = some path ∧
      fsys path = some sections ∧ srec ∈ sections ∧
      c.title_num = tEntry.1 ∧ c.title_name = tEntry.2.name ∧
      c.part_num = pEntry.1 ∧ c.section_num = (srec : SectionRec).secNum ∧
      c.section_title = srec.secTitle ∧
      c.source = pyS "Title " ++ tEntry.1 ++ pyS ", Part " ++ pEntry.1 ++
        pyS ", Section " ++ srec.secNum := by
  simp only [extract_text_from_content] at hc
  rw [mem_cat] at hc
  obtain ⟨l1, hl1, hc⟩ := hc
  obtain ⟨tEntry, htE, rfl⟩ := List.mem_map.mp hl1
  rw [mem_cat] at hc
  obtain ⟨l2, hl2, hc⟩ := hc
  obtain ⟨pEntry, hpE, rfl⟩ := List.mem_map.mp hl2
  rw [partChunks] at hc
  cases hsf : pEntry.2.sections_file with
  | none => rw [hsf] at hc; simp at hc
  | some path =>
      rw [hsf] at hc
      dsimp only at hc
      cases hfs : fsys path with
      | none => rw [hfs] at hc; simp at hc
      | some sections =>
          rw [hfs] at hc
          dsimp only at hc
          rw [mem_cat] at hc
          obtain ⟨l3, hl3, hc⟩ := hc
          obtain ⟨srec, hsrec, rfl⟩ := List.mem_map.mp hl3
          rw [sectionChunks] at hc
          by_cases hcontent : srec.content = []
          · rw [if_pos hcontent] at hc; simp at hc
          · rw [if_neg hcontent] at hc
            obtain ⟨t, rfl⟩ := chunkLoop_meta _ _ _ c hc
            exact ⟨tEntry, pEntry, path, sections, srec, htE, hpE, hsf, hfs,
              hsrec, rfl, rfl, rfl, rfl, rfl, rfl⟩

/-! ## Claims C4, C5, C8, C10: the query service -/

theorem toScore_anti (d1 d2 : ℚ) (h0 : 0 ≤ d1) (h : d1 ≤ d2) :
    toScore d2 ≤ toScore d1 := by
  unfold toScore
  apply one_div_le_one_div_of_le <;> linarith

theorem toScore_strict_anti (d1 d2 : ℚ) (h0 : 0 ≤ d1) (h : d1 < d2) :
    toScore d2 < toScore d1 := by
  unfold toScore
  apply one_div_lt_one_div_of_lt <;> linarith

/-- The successful runs of the result loop: the scores are the score
transform of the distances of some subsequence of the returned rows. -/
theorem buildResults_scores_sub (chunks : List Chunk) :
    ∀ (neighbors : List (Int × ℚ)) (rs : List QueryRes),
      buildResults chunks neighbors = .ok rs →
      ∃ sub : List (Int × ℚ), sub.Sublist neighbors ∧
        rs.map (fun r => r.score) = sub.map (fun p => toScore p.2) := by
  intro neighbors
  induction neighbors with
  | nil =>
      intro rs h
      rw [buildResults] at h
      cases h
      exact ⟨[], List.Sublist.refl _, by simp⟩
  | cons p rest ih =>
      intro rs h
      obtain ⟨idx, dist⟩ := p
      rw [buildResults] at h
      by_cases hidx : idx < (chunks.length : Int)
      · rw [if_pos hidx] at h
        cases hg : pyGetElem chunks idx with
        | none => rw [hg] at h; simp at h
        | some c =>
            rw [hg] at h
            cases hb : buildResults chunks rest with
            | error e => rw [hb] at h; simp at h
            | ok rs2 =>
                rw [hb] at h
                simp only at h
                cases h
                obtain ⟨sub, hsub, hmap⟩ := ih rs2 hb
                refine ⟨(idx, dist) :: sub, hsub.cons₂ _, ?_⟩
                simp [mkResult, hmap]
      · rw [if_neg hidx] at h
        obtain ⟨sub, hsub, hmap⟩ := ih rs h
        exact ⟨sub, hsub.cons _, hmap⟩

theorem chain_scores (l : List (Int × ℚ)) (hnn : ∀ p ∈ l, 0 ≤ p.2)
    (hc : List.Chain' (fun p q : Int × ℚ => p.2 ≤ q.2) l) :
    List.Chain' (fun a b : ℚ => b ≤ a) (l.map (fun p => toScore p.2)) := by
  induction l with
  | nil => simp
  | cons p t ih =>
      cases t with
      | nil => simp
      | cons q t2 =>
          rw [List.map_cons, List.map_cons, List.chain'_cons]
          rw [List.chain'_cons] at hc
          refine ⟨toScore_anti p.2 q.2 (hnn p (by simp)) hc.1, ?_⟩
          have := ih (fun x hx => hnn x (by simp [List.mem_cons.mp hx])) hc.2
          simpa using this

theorem chain_sub_le (l1 l2 : List (Int × ℚ)) (hsub : l1.Sublist l2)
    (hc : List.Chain' (fun p q : Int × ℚ => p.2 ≤ q.2) l2) :
    List.Chain' (fun p q : Int × ℚ => p.2 ≤ q.2) l1 :=
  ((List.chain'_iff_pairwise.mp hc).sublist hsub).chain'

theorem claim_C9_witness :
    ∃ tEntry pEntry path sections srec,
      tEntry ∈ w9cd.results ∧ pEntry ∈ (tEntry : PyStr × TitleData).2.parts ∧
      (pEntry : PyStr × PartData).2.sections_file = some path ∧
      w9fsys path = some sections ∧ srec ∈ sections ∧
      w9chunk.title_num = tEntry.1 ∧ w9chunk.title_name = tEntry.2.name ∧
      w9chunk.part_num = pEntry.1 ∧
      w9chunk.section_num = (srec : SectionRec).secNum ∧
      w9chunk.section_title = srec.secTitle ∧
      w9chunk.source = pyS "Title " ++ tEntry.1 ++ pyS ", Part " ++ pEntry.1 ++
        pyS ", Section " ++ srec.secNum :=
  claim_C9 w2tok w9fsys w9cd w9chunk (by decide)

/-- Claim C4: when the index search returns only nonnegative row indices,
the result loop never raises: every row whose index is at least the
chunk-list length is silently dropped, and the in-range rows are resolved
positionally and returned, in order (`keptResults`). -/
theorem claim_C4 (chunks : List Chunk) (neighbors : List (Int × ℚ))
    (hnn : ∀ p ∈ neighbors, 0 ≤ p.1) :
    buildResults chunks neighbors = .ok (keptResults chunks neighbors) := by
  induction neighbors with
  | nil => rfl
  | cons p rest ih =>
      obtain ⟨idx, dist⟩ := p
      have h0 : (0 : Int) ≤ idx := hnn (idx, dist) (by simp)
      have ihr := ih (fun q hq => hnn q (by simp [hq]))
      rw [buildResults, keptResults, List.filterMap_cons]
      by_cases hidx : idx < (chunks.length : Int)
      · have hlt : idx.toNat < chunks.length := by omega
        have hg : pyGetElem chunks idx = some (chunks.get ⟨idx.toNat, hlt⟩) := by
          rw [pyGetElem, if_pos h0]
          exact List.getElem?_eq_getElem hlt
        rw [if_pos hidx, hg, ihr]
        simp only [if_pos hidx, List.getElem?_eq_getElem hlt, Option.map_some]
        rw [keptResults]
        simp
      · rw [if_neg hidx, ihr]
        simp only [if_neg hidx]
        rw [keptResults]

def w4nb : List (Int × ℚ) := [((0 : Int), (1 : ℚ)), ((5 : Int), (2 : ℚ))]

theorem claim_C4_witness :
    buildResults wChunksQ w4nb = .ok (keptResults wChunksQ w4nb) :=
  claim_C4 wChunksQ w4nb (by decide)

/-- Claim C5: a negative row index passes the bound check
(`idx < len(text_chunks)` holds) and Python's negative indexing resolves it
from the end of the chunk list: for `-k` with `0 < k ≤ len`, the returned
result is the chunk at position `len - k` (for `-1`, the last chunk) — the
defensive check guards only the upper bound. -/
theorem claim_C5 (chunks : List Chunk) (neighbors : List (Int × ℚ))
    (k : Nat) (d : ℚ) (rs : List QueryRes)
    (h1 : 0 < k) (h2 : k ≤ chunks.length)
    (h : buildResults chunks neighbors = .ok rs) :
    buildResults chunks ((-(k : Int), d) :: neighbors)
      = .ok (mkResult
          (chunks.get ⟨chunks.length - k,
            Nat.sub_lt (Nat.lt_of_lt_of_le h1 h2) h1⟩) d :: rs) := by
  rw [buildResults]
  have hidx : -(k : Int) < (chunks.length : Int) := by omega
  rw [if_pos hidx]
  have hneg : ¬ (0 : Int) ≤ -(k : Int) := by omega
  have hlt : chunks.length - k < chunks.length :=
    Nat.sub_lt (Nat.lt_of_lt_of_le h1 h2) h1
  have hg : pyGetElem chunks (-(k : Int))
      = some (chunks.get ⟨chunks.length - k, hlt⟩) := by
    rw [pyGetElem, if_neg hneg]
    have hk : (-(-(k : Int))).toNat = k := by simp
    rw [hk, if_pos h2]
    exact List.getElem?_eq_getElem hlt
  rw [hg, h]

theorem claim_C5_witness :
    buildResults wChunksQ [((-1 : Int), (0 : ℚ))]
      = .ok [mkResult (wChunksQ.get ⟨1, by decide⟩) 0] :=
  claim_C5 wChunksQ [] 1 0 [] (by decide) (by decide) rfl

/-- Claim C8: every returned score is `1 / (1 + d)` for `d` the row's
distance; this transform is strictly decreasing on `d ≥ 0`, so a result
list assembled from rows in ascending-distance order carries scores in
descending order — ranking by ascending distance and by descending score
coincide, and ranking is determined by the raw distances alone. -/
theorem claim_C8 (chunks : List Chunk) (neighbors : List (Int × ℚ))
    (rs : List QueryRes)
    (hnn : ∀ p ∈ neighbors, 0 ≤ p.2)
    (hsorted : List.Chain' (fun p q : Int × ℚ => p.2 ≤ q.2) neighbors)
    (h : buildResults chunks neighbors = .ok rs) :
    (∀ r ∈ rs, ∃ p ∈ neighbors, r.score = 1 / (1 + p.2))
    ∧ List.Chain' (fun r r2 : QueryRes => r2.score ≤ r.score) rs
    ∧ (∀ d1 d2 : ℚ, 0 ≤ d1 → d1 < d2 → toScore d2 < toScore d1) := by
  obtain ⟨sub, hsub, hmap⟩ := buildResults_scores_sub chunks neighbors rs h
  refine ⟨?_, ?_, fun d1 d2 h0 hlt => toScore_strict_anti d1 d2 h0 hlt⟩
  · intro r hr
    have hmem : r.score ∈ rs.map (fun r => r.score) :=
      List.mem_map_of_mem _ hr
    rw [hmap] at hmem
    obtain ⟨p, hp, hps⟩ := List.mem_map.mp hmem
    exact ⟨p, hsub.subset hp, hps.symm⟩
  · have hchainsub := chain_sub_le sub neighbors hsub hsorted
    have hscores :=
      chain_scores sub (fun p hp => hnn p (hsub.subset hp)) hchainsub
    rw [← hmap] at hscores
    exact (List.chain'_map _).mp hscores

def w8nb : List (Int × ℚ) := [((0 : Int), (1 : ℚ)), ((1 : Int), (2 : ℚ))]

def w8rs : List QueryRes := [mkResult w2chunk 1, mkResult w9chunk 2]

theorem claim_C8_witness :
    (∀ r ∈ w8rs, ∃ p ∈ w8nb, r.score = 1 / (1 + p.2))
    ∧ List.Chain' (fun r r2 : QueryRes => r2.score ≤ r.score) w8rs
    ∧ (∀ d1 d2 : ℚ, 0 ≤ d1 → d1 < d2 → toScore d2 < toScore d1) :=
  claim_C8 wChunksQ w8nb w8rs (by decide)
    (by norm_num [w8nb, List.chain'_cons]) rfl

/-- Claim C10: only a missing metadata file takes the graceful
log-and-return-nothing path; if the metadata exists but names an absent
chunk-list file, or an absent index file, the open raises an unhandled
exception (modelled `.error (.fileNotFound path)`). -/
theorem claim_C10 (fs1 fs2 fs3 : QueryFs) (encode : String → List ℚ)
    (search : IndexFlatL2 → List ℚ → Nat → List (Int × ℚ))
    (query : String) (top_k : Nat) (md2 md3 : Metadata) (chunks3 : List Chunk)
    (h1 : fs1.latest_metadata = none)
    (h2 : fs2.latest_metadata = some md2)
    (h2f : fs2.pickle_files md2.files.latest_text_chunks = none)
    (h3 : fs3.latest_metadata = some md3)
    (h3f : fs3.pickle_files md3.files.latest_text_chunks = some chunks3)
    (h3i : fs3.index_files md3.files.latest_faiss_index = none) :
    test_vector_search fs1 encode search query top_k = .ok none
    ∧ test_vector_search fs2 encode search query top_k
        = .error (.fileNotFound md2.files.latest_text_chunks)
    ∧ test_vector_search fs3 encode search query top_k
        = .error (.fileNotFound md3.files.latest_faiss_index) := by
  refine ⟨?_, ?_, ?_⟩
  · rw [test_vector_search, h1]
  · rw [test_vector_search, h2]
    dsimp only
    rw [h2f]
  · rw [test_vector_search, h3]
    dsimp only
    rw [h3f]
    dsimp only
    rw [h3i]

theorem claim_C10_witness :
    test_vector_search wFs10a (fun _ => []) (fun _ _ _ => []) "q" 5 = .ok none
    ∧ test_vector_search wFs10b (fun _ => []) (fun _ _ _ => []) "q" 5
        = .error (.fileNotFound wMd10.files.latest_text_chunks)
    ∧ test_vector_search wFs10c (fun _ => []) (fun _ _ _ => []) "q" 5
        = .error (.fileNotFound wMd10.files.latest_faiss_index) :=
  claim_C10 wFs10a wFs10b wFs10c (fun _ => []) (fun _ _ _ => []) "q" 5
    wMd10 wMd10 wChunksQ rfl rfl rfl rfl (by decide) rfl

end ECFR
